import Mathlib

/-!
Verification of the transcript parsing pipeline in `parse_transcript.py`.

The program has three pure components:
  - `parse_transcript` (Extractor): walks a parsed JSON document along the
    path `minutes.paragraphs` and produces one utterance record per
    paragraph that yields at least one non-empty word fragment;
  - `merge_transcripts` (Merger): concatenates several utterance sequences
    and sorts the result by `start_time` with a stable sort (Python
    `list.sort` is stable; we model it with stable insertion sort);
  - `format_to_markdown` (Formatter): renders each record as
    `**[NAME]**: CONTENT` followed by a newline, then joins the rendered
    lines with single newlines.

Documents are modelled as a typed tree in which every field consulted by
the program is an `Option`, mirroring the Python `dict.get` calls with
their defaults.  Timestamps are modelled as `Int` (the program only uses
them for ordering).
-/

namespace Transcriber

/-- The sole domain entity: one speech record, as built at
`parse_transcript.py` lines 48-52. -/
structure Utterance where
  speaker_name : String
  content : String
  start_time : Int
deriving DecidableEq

/-- A word unit: the program reads `word.get('text', '')` (line 40). -/
structure Word where
  text : Option String
deriving DecidableEq

/-- A sentence unit: the program reads `sentence.get('words', [])` (line 39). -/
structure Sentence where
  words : Option (List Word)
deriving DecidableEq

/-- A speaker unit: the program reads `.get('user_name', ...)` (line 34). -/
structure Speaker where
  user_name : Option String
deriving DecidableEq

/-- A paragraph unit: the program reads `paragraph.get('speaker', {})`,
`paragraph.get('sentences', [])` and `paragraph.get('start_time', 0)`. -/
structure Paragraph where
  speaker : Option Speaker
  sentences : Option (List Sentence)
  start_time : Option Int
deriving DecidableEq

/-- The `minutes` object: the program tests `'paragraphs' in data['minutes']`. -/
structure Minutes where
  paragraphs : Option (List Paragraph)
deriving DecidableEq

/-- The top-level parsed document: the program tests `'minutes' in data`. -/
structure Document where
  minutes : Option Minutes
deriving DecidableEq

/-- Line 34: `paragraph.get('speaker', {}).get('user_name', '未知发言人')`.
An absent `speaker` unit behaves like an empty dict, so the `user_name`
lookup falls back to the placeholder; a present `user_name` is used
verbatim. -/
def speakerNameOf (p : Paragraph) : String :=
  match p.speaker with
  | none => "未知发言人"
  | some sp => sp.user_name.getD "未知发言人"

/-- Lines 39-42 for one sentence: collect each `word.get('text', '')`
that is non-empty (`if text:`), in order. -/
def sentenceParts (s : Sentence) : List String :=
  (s.words.getD []).filterMap (fun w =>
    let text := w.text.getD ""
    if text ≠ "" then some text else none)

/-- Lines 37-42: the `content_parts` list accumulated over all sentences
of a paragraph. -/
def contentParts (p : Paragraph) : List String :=
  (p.sentences.getD []).flatMap sentenceParts

/-- Lines 44-52: emit a record exactly when `content_parts` is non-empty;
`content` is `''.join(content_parts)` and `start_time` defaults to 0. -/
def paragraphRecord (p : Paragraph) : Option Utterance :=
  let parts := contentParts p
  if parts.isEmpty then none
  else some ⟨speakerNameOf p, String.join parts, p.start_time.getD 0⟩

/-- Lines 26-54: `parse_transcript` on an already-parsed document.  When
the `minutes` key or the nested `paragraphs` key is missing, the loop body
never runs and the empty list is returned. -/
def parse_transcript (data : Document) : List Utterance :=
  match data.minutes with
  | some m =>
    match m.paragraphs with
    | some paragraphs => paragraphs.filterMap paragraphRecord
    | none => []
  | none => []

/-- The sort key relation used at line 72: `key=lambda x: x['start_time']`. -/
def byStart (a b : Utterance) : Prop :=
  a.start_time ≤ b.start_time

instance : DecidableRel byStart :=
  fun a b => Int.decLe a.start_time b.start_time

instance : IsTotal Utterance byStart :=
  ⟨fun a b => Int.le_total a.start_time b.start_time⟩

instance : IsTrans Utterance byStart :=
  ⟨fun _ _ _ h1 h2 => Int.le_trans h1 h2⟩

/-- Lines 67-74: `merge_transcripts` flattens the input sequences with
`merged.extend(transcript)` in order, then applies Python `list.sort`,
a stable sort keyed solely on `start_time`; stable sorting is modelled
by stable insertion sort. -/
def merge_transcripts (transcripts : List (List Utterance)) : List Utterance :=
  let merged := transcripts.foldl (fun acc t => acc ++ t) []
  List.insertionSort byStart merged

/-- Lines 87-96: each record renders as `**[NAME]**: CONTENT` plus a
trailing newline (the f-string at line 94), and the rendered lines are
joined with `'\n'.join(lines)`. -/
def format_to_markdown (transcript : List Utterance) : String :=
  let lines := transcript.map (fun record =>
    "**[" ++ record.speaker_name ++ "]**: " ++ record.content ++ "\n")
  String.intercalate "\n" lines

/-- All word-text fragments of a paragraph, in source order, an absent
`text` reading as the empty string.  This is the notion of fragment list
the specification quantifies over. -/
def wordTexts (p : Paragraph) : List String :=
  (p.sentences.getD []).flatMap (fun s =>
    (s.words.getD []).map (fun w => w.text.getD ""))

/-- The records of a list whose `start_time` equals `t`, kept in their
relative order.  Used to state stability of the Merger. -/
def filterAt (t : Int) (l : List Utterance) : List Utterance :=
  l.filter (fun r => r.start_time = t)

/- Heap model for the frame property of the Merger: Python lists are
mutable cells; `merge_transcripts` allocates a fresh list `merged`,
extends it from the argument cells, and sorts it in place, never writing
to an argument cell. -/

/-- A heap of Python list values: addresses below `next` are allocated. -/
structure Heap where
  next : Nat
  cells : Nat → List Utterance

/-- Read a list cell. -/
def readCell (h : Heap) (a : Nat) : List Utterance :=
  h.cells a

/-- Overwrite a list cell in place (models `list.extend` / `list.sort`). -/
def writeCell (h : Heap) (a : Nat) (v : List Utterance) : Heap :=
  ⟨h.next, fun b => if b = a then v else h.cells b⟩

/-- Allocate a fresh list cell (models `merged = []` at line 67). -/
def alloc (h : Heap) (v : List Utterance) : Heap × Nat :=
  (⟨h.next + 1, fun b => if b = h.next then v else h.cells b⟩, h.next)

/-- Lines 68-69: `for transcript in transcripts: merged.extend(transcript)`,
with `merged` living at address `m` and the arguments at `args`. -/
def extendAll (m : Nat) (h : Heap) (args : List Nat) : Heap :=
  args.foldl (fun hh a => writeCell hh m (readCell hh m ++ readCell hh a)) h

/-- Lines 67-74 as an operation on the heap: allocate `merged`, extend it
from every argument cell, sort it in place, return the heap and the
address of the result. -/
def merge_transcripts_op (h : Heap) (args : List Nat) : Heap × Nat :=
  let p := alloc h []
  let h2 := extendAll p.2 p.1 args
  let h3 := writeCell h2 p.2 (List.insertionSort byStart (readCell h2 p.2))
  (h3, p.2)

/-! ## Theorems -/

/-- Claim C1 (counterexample): the Formatter applied to the single record
(Alice, Hello, 0) does NOT produce the two-newline string claimed by the
specification.  With one record there is nothing to join, so only the one
newline from the rendered line itself appears. -/
theorem format_single_not_double_newline :
    format_to_markdown [⟨"Alice", "Hello", 0⟩] ≠ "**[Alice]**: Hello\n\n" := by
  decide

/-- Claim C1 (amended): the Formatter applied to the single record
(Alice, Hello, 0) produces exactly the content line terminated by ONE
newline; the blank line appears only between entries. -/
theorem format_single_eq_single_newline :
    format_to_markdown [⟨"Alice", "Hello", 0⟩] = "**[Alice]**: Hello\n" := by
  decide

/-- Claim C2 (counterexample): for a single input sequence that is not
already sorted by start time, merge does not return it unchanged: the
stable sort reorders it. -/
theorem merge_singleton_ne_self :
    merge_transcripts [[⟨"B", "y", 1⟩, ⟨"A", "x", 0⟩]]
      ≠ [⟨"B", "y", 1⟩, ⟨"A", "x", 0⟩] := by
  decide

/-- Claim C2 (amended): for every single utterance sequence A that is
already nondecreasing in start time, merge applied to the one-element list
of sequences returns A itself, so skipping the Merger for a single
already-sorted document yields identical observable output. -/
theorem merge_singleton_sorted_eq (A : List Utterance) (h : A.Sorted byStart) :
    merge_transcripts [A] = A := by
  show List.insertionSort byStart ([] ++ A) = A
  simpa using h.insertionSort_eq

/-- Witness for the amended claim C2 at a concrete sorted sequence. -/
theorem merge_singleton_sorted_eq_witness :
    merge_transcripts [[⟨"A", "x", 0⟩, ⟨"B", "y", 1⟩]]
      = [⟨"A", "x", 0⟩, ⟨"B", "y", 1⟩] :=
  merge_singleton_sorted_eq [⟨"A", "x", 0⟩, ⟨"B", "y", 1⟩] (by decide)

/-- Claim C6: a document lacking the minutes key, or whose minutes lacks
the paragraphs key, extracts to the empty sequence (and `parse_transcript`
is a total function, so no error is signalled). -/
theorem parse_missing_path_empty (d : Document)
    (h : d.minutes = none ∨ ∃ m, d.minutes = some m ∧ m.paragraphs = none) :
    parse_transcript d = [] := by
  rcases h with h | ⟨m, hm, hp⟩
  · simp [parse_transcript, h]
  · simp [parse_transcript, hm, hp]

/-- Witness for claim C6 at the concrete empty document. -/
theorem parse_missing_path_empty_witness :
    parse_transcript ⟨none⟩ = [] :=
  parse_missing_path_empty ⟨none⟩ (Or.inl rfl)

/-- Claim C7: every field absence degrades to its documented default and,
the embedding being total, no exception can arise: an absent speaker unit
or absent user name yields the placeholder, an absent sentences key yields
no record, an absent words key contributes no fragments, a word with an
absent text key contributes nothing to the sentence fragments, and an
absent paragraph start time defaults to 0 in the emitted record. -/
theorem extractor_defaults :
    (∀ p : Paragraph, p.speaker = none → speakerNameOf p = "未知发言人")
    ∧ (∀ (p : Paragraph) (sp : Speaker),
        p.speaker = some sp → sp.user_name = none → speakerNameOf p = "未知发言人")
    ∧ (∀ p : Paragraph, p.sentences = none → paragraphRecord p = none)
    ∧ (∀ s : Sentence, s.words = none → sentenceParts s = [])
    ∧ (∀ (s : Sentence) (pre post : List Word) (w : Word),
        w.text = none → s.words = some (pre ++ w :: post) →
        sentenceParts s = sentenceParts ⟨some (pre ++ post)⟩)
    ∧ (∀ (p : Paragraph) (u : Utterance),
        p.start_time = none → paragraphRecord p = some u → u.start_time = 0) := by
  refine ⟨?_, ?_, ?_, ?_, ?_, ?_⟩
  · intro p h
    simp [speakerNameOf, h]
  · intro p sp hp hn
    simp [speakerNameOf, hp, hn]
  · intro p h
    simp [paragraphRecord, contentParts, h]
  · intro s h
    simp [sentenceParts, h]
  · intro s pre post w hw hs
    simp [sentenceParts, hs, hw, List.filterMap_append]
  · intro p u h hr
    by_cases hc : (contentParts p).isEmpty
    · simp [paragraphRecord, hc] at hr
    · have he : paragraphRecord p
          = some ⟨speakerNameOf p, String.join (contentParts p), p.start_time.getD 0⟩ := by
        simp [paragraphRecord, hc]
      rw [he, Option.some_inj] at hr
      subst hr
      simp [h]

/-- Witness for claim C7 at concrete paragraphs, sentences and words. -/
theorem extractor_defaults_witness :
    speakerNameOf ⟨none, none, none⟩ = "未知发言人"
    ∧ speakerNameOf ⟨some ⟨none⟩, none, none⟩ = "未知发言人"
    ∧ paragraphRecord ⟨none, none, none⟩ = none
    ∧ sentenceParts ⟨none⟩ = []
    ∧ sentenceParts ⟨some [⟨none⟩]⟩ = sentenceParts ⟨some []⟩
    ∧ (⟨"未知发言人", "hi", 0⟩ : Utterance).start_time = 0 :=
  ⟨extractor_defaults.1 _ rfl,
   extractor_defaults.2.1 _ ⟨none⟩ rfl rfl,
   extractor_defaults.2.2.1 _ rfl,
   extractor_defaults.2.2.2.1 _ rfl,
   extractor_defaults.2.2.2.2.1 ⟨some [⟨none⟩]⟩ [] [] ⟨none⟩ rfl rfl,
   extractor_defaults.2.2.2.2.2 ⟨none, some [⟨some [⟨some "hi"⟩]⟩], none⟩ _ rfl (by decide)⟩

/-- Claim C9: a present user name is used verbatim, even when it is the
empty string; in particular a paragraph whose speaker unit carries the
empty user name produces a record whose speaker name is the empty string,
not the placeholder. -/
theorem speaker_name_verbatim :
    (∀ (p : Paragraph) (sp : Speaker) (s : String),
      p.speaker = some sp → sp.user_name = some s → speakerNameOf p = s)
    ∧ (∀ (p : Paragraph) (sp : Speaker) (u : Utterance),
      p.speaker = some sp → sp.user_name = some "" →
      paragraphRecord p = some u → u.speaker_name = "") := by
  constructor
  · intro p sp s hp hn
    simp [speakerNameOf, hp, hn]
  · intro p sp u hp hn hr
    by_cases hc : (contentParts p).isEmpty
    · simp [paragraphRecord, hc] at hr
    · have he : paragraphRecord p
          = some ⟨speakerNameOf p, String.join (contentParts p), p.start_time.getD 0⟩ := by
        simp [paragraphRecord, hc]
      rw [he, Option.some_inj] at hr
      subst hr
      simp [speakerNameOf, hp, hn]

/-- Witness for claim C9 at a concrete paragraph with an empty user name. -/
theorem speaker_name_verbatim_witness :
    speakerNameOf ⟨some ⟨some ""⟩, some [⟨some [⟨some "hi"⟩]⟩], none⟩ = ""
    ∧ (⟨"", "hi", 0⟩ : Utterance).speaker_name = "" :=
  ⟨speaker_name_verbatim.1 ⟨some ⟨some ""⟩, some [⟨some [⟨some "hi"⟩]⟩], none⟩ ⟨some ""⟩ "" rfl rfl,
   speaker_name_verbatim.2 ⟨some ⟨some ""⟩, some [⟨some [⟨some "hi"⟩]⟩], none⟩ ⟨some ""⟩
     ⟨"", "hi", 0⟩ rfl rfl (by decide)⟩

/-! ### Stable sorting: supporting lemmas -/

/-- The extend loop at lines 68-69 concatenates the input sequences. -/
theorem foldl_append_eq_flatten (ts : List (List Utterance)) (acc : List Utterance) :
    ts.foldl (fun a t => a ++ t) acc = acc ++ ts.flatten := by
  induction ts generalizing acc with
  | nil => simp
  | cons t ts ih => simp [ih]

/-- The Merger is insertion sort of the flattened inputs. -/
theorem merge_eq_sort_flatten (ts : List (List Utterance)) :
    merge_transcripts ts = List.insertionSort byStart ts.flatten := by
  unfold merge_transcripts
  rw [foldl_append_eq_flatten]
  simp

theorem filterAt_cons (t : Int) (a : Utterance) (l : List Utterance) :
    filterAt t (a :: l)
      = if a.start_time = t then a :: filterAt t l else filterAt t l := by
  by_cases h : a.start_time = t <;> simp [filterAt, List.filter_cons, h]

theorem filterAt_append (t : Int) (l1 l2 : List Utterance) :
    filterAt t (l1 ++ l2) = filterAt t l1 ++ filterAt t l2 := by
  simp [filterAt, List.filter_append]

theorem filterAt_eq_nil (t : Int) (l : List Utterance)
    (h : ∀ b ∈ l, b.start_time ≠ t) : filterAt t l = [] := by
  rw [filterAt, List.filter_eq_nil_iff]
  intro b hb
  simp [h b hb]

/-- Inserting an element only jumps over records with strictly smaller
start times, so the sublist of records at any fixed start time is
preserved, with the inserted element in front of its equals. -/
theorem filterAt_orderedInsert (t : Int) (a : Utterance) (l : List Utterance) :
    filterAt t (List.orderedInsert byStart a l)
      = if a.start_time = t then a :: filterAt t l else filterAt t l := by
  induction l with
  | nil => exact filterAt_cons t a []
  | cons b l ih =>
    by_cases hab : byStart a b
    · rw [List.orderedInsert_of_le _ _ hab]
      exact filterAt_cons t a (b :: l)
    · rw [show List.orderedInsert byStart a (b :: l)
            = b :: List.orderedInsert byStart a l from by
          rw [List.orderedInsert, if_neg hab]]
      rw [filterAt_cons, ih, filterAt_cons]
      have hba : b.start_time < a.start_time := by
        simpa [byStart, not_le] using hab
      by_cases hb : b.start_time = t
      · have ha : ¬ a.start_time = t := by omega
        simp [hb, ha]
      · by_cases ha : a.start_time = t <;> simp [hb, ha]

/-- Stability of the sort at line 72: for every start time, the records
carrying it come out of the sort in their input order. -/
theorem filterAt_insertionSort (t : Int) (l : List Utterance) :
    filterAt t (List.insertionSort byStart l) = filterAt t l := by
  induction l with
  | nil => rfl
  | cons a l ih =>
    rw [List.insertionSort, filterAt_orderedInsert, ih, filterAt_cons]

/-- A sequence nondecreasing in start time is determined by its
per-start-time sublists: the sorted order plus stability characterize the
output of the Merger uniquely. -/
theorem eq_of_sorted_of_filterAt_eq :
    ∀ xs ys : List Utterance, xs.Sorted byStart → ys.Sorted byStart →
      (∀ t, filterAt t xs = filterAt t ys) → xs = ys := by
  intro xs
  induction xs with
  | nil =>
    intro ys _ _ h
    cases ys with
    | nil => rfl
    | cons y ys =>
      have h0 := h y.start_time
      rw [filterAt_cons, if_pos rfl] at h0
      exact absurd h0 (by simp [filterAt])
  | cons x xs ih =>
    intro ys hxs hys h
    cases ys with
    | nil =>
      have h0 := h x.start_time
      rw [filterAt_cons, if_pos rfl] at h0
      exact absurd h0 (by simp [filterAt])
    | cons y ys =>
      rw [List.sorted_cons] at hxs hys
      have hxy : x.start_time = y.start_time := by
        by_contra hne
        rcases Ne.lt_or_lt hne with hlt | hgt
        · have h0 := h x.start_time
          have hnil : filterAt x.start_time (y :: ys) = [] := by
            apply filterAt_eq_nil
            intro b hb
            rcases List.mem_cons.mp hb with hb | hb
            · subst hb; omega
            · have := hys.1 b hb
              simp only [byStart] at this
              omega
          rw [filterAt_cons, if_pos rfl, hnil] at h0
          exact absurd h0 (by simp)
        · have h0 := h y.start_time
          have hnil : filterAt y.start_time (x :: xs) = [] := by
            apply filterAt_eq_nil
            intro b hb
            rcases List.mem_cons.mp hb with hb | hb
            · subst hb; omega
            · have := hxs.1 b hb
              simp only [byStart] at this
              omega
          rw [hnil, filterAt_cons, if_pos rfl] at h0
          exact absurd h0.symm (by simp)
      have h0 := h x.start_time
      rw [filterAt_cons, if_pos rfl, filterAt_cons, if_pos hxy.symm] at h0
      have hx : x = y := by
        injection h0
      have hfilter : ∀ t, filterAt t xs = filterAt t ys := by
        intro t
        by_cases ht : t = x.start_time
        · subst ht
          injection h0 with h1 h2
        · have h1 := h t
          rw [filterAt_cons, if_neg (by omega), filterAt_cons, if_neg (by omega)] at h1
          exact h1
      rw [hx, ih ys hxs.2 hys.2 hfilter]

/-- Re-sorting after sorting a left chunk gives the sort of the plain
concatenation: both sides are sorted and have the same per-start-time
sublists. -/
theorem sort_append_left (xs ys : List Utterance) :
    List.insertionSort byStart (List.insertionSort byStart xs ++ ys)
      = List.insertionSort byStart (xs ++ ys) := by
  apply eq_of_sorted_of_filterAt_eq _ _
    (List.sorted_insertionSort byStart _) (List.sorted_insertionSort byStart _)
  intro t
  rw [filterAt_insertionSort, filterAt_insertionSort, filterAt_append,
    filterAt_append, filterAt_insertionSort]

/-- Symmetric version of `sort_append_left` for a sorted right chunk. -/
theorem sort_append_right (xs ys : List Utterance) :
    List.insertionSort byStart (xs ++ List.insertionSort byStart ys)
      = List.insertionSort byStart (xs ++ ys) := by
  apply eq_of_sorted_of_filterAt_eq _ _
    (List.sorted_insertionSort byStart _) (List.sorted_insertionSort byStart _)
  intro t
  rw [filterAt_insertionSort, filterAt_insertionSort, filterAt_append,
    filterAt_append, filterAt_insertionSort]

/-- Claim C4: the Merger returns the concatenation of its inputs stably
sorted by start time alone: the output is nondecreasing in start time,
and for every time value the records carrying it appear in exactly their
concatenation order. -/
theorem merge_sorted_and_stable (ts : List (List Utterance)) :
    (merge_transcripts ts).Sorted byStart
    ∧ ∀ t : Int, filterAt t (merge_transcripts ts) = filterAt t ts.flatten := by
  constructor
  · rw [merge_eq_sort_flatten]
    exact List.sorted_insertionSort byStart _
  · intro t
    rw [merge_eq_sort_flatten, filterAt_insertionSort]

/-- Claim C10: the Merger drops, duplicates and alters nothing: its
output has length equal to the sum of the input lengths and is a
permutation of the concatenation of the inputs. -/
theorem merge_length_and_perm (ts : List (List Utterance)) :
    (merge_transcripts ts).length = (ts.map List.length).sum
    ∧ (merge_transcripts ts).Perm ts.flatten := by
  have hp : (merge_transcripts ts).Perm ts.flatten := by
    rw [merge_eq_sort_flatten]
    exact List.perm_insertionSort byStart _
  exact ⟨by rw [hp.length_eq]; exact List.length_flatten _, hp⟩

/-- Claim C5: merging is associative with respect to grouping of the
input sequences, but reordering the input sequences can change the output
because equal start times are tie-broken by input order. -/
theorem merge_assoc_not_comm :
    (∀ A B C : List Utterance,
      merge_transcripts [merge_transcripts [A, B], C] = merge_transcripts [A, B, C]
      ∧ merge_transcripts [A, merge_transcripts [B, C]] = merge_transcripts [A, B, C])
    ∧ ∃ A B : List Utterance, merge_transcripts [A, B] ≠ merge_transcripts [B, A] := by
  constructor
  · intro A B C
    have hpair : ∀ X Y : List Utterance,
        merge_transcripts [X, Y] = List.insertionSort byStart (X ++ Y) := by
      intro X Y
      rw [merge_eq_sort_flatten]
      simp
    have htriple :
        merge_transcripts [A, B, C] = List.insertionSort byStart (A ++ (B ++ C)) := by
      rw [merge_eq_sort_flatten]
      simp
    constructor
    · rw [hpair, hpair, htriple, sort_append_left, List.append_assoc]
    · rw [hpair, hpair, htriple, sort_append_right]
  · refine ⟨[⟨"A", "x", 0⟩], [⟨"B", "y", 0⟩], ?_⟩
    decide

/-! ### Extractor: content reconstruction -/

/-- The per-sentence fragment list is the non-empty word texts in order. -/
theorem sentenceParts_eq_filter (s : Sentence) :
    sentenceParts s
      = ((s.words.getD []).map (fun w => w.text.getD "")).filter (fun t => t ≠ "") := by
  rw [sentenceParts]
  induction s.words.getD [] with
  | nil => rfl
  | cons w ws ih =>
    rw [List.filterMap_cons, List.map_cons, List.filter_cons]
    by_cases h : w.text.getD "" = ""
    · rw [if_neg (by simp [h]), if_neg (by simp [h]), ih]
    · rw [if_pos (by simp [h]), if_pos (by simp [h]), ih]

/-- The accumulated content fragments of a paragraph are the non-empty
word texts of the paragraph in source order. -/
theorem contentParts_eq_filter (p : Paragraph) :
    contentParts p = (wordTexts p).filter (fun t => t ≠ "") := by
  rw [contentParts, wordTexts]
  induction p.sentences.getD [] with
  | nil => rfl
  | cons s ss ih =>
    rw [List.flatMap_cons, List.flatMap_cons, List.filter_append, ih,
      sentenceParts_eq_filter]

/-- Empty fragments contribute nothing to the joined content. -/
theorem join_filter_nonempty (l : List String) :
    String.join (l.filter (fun t => t ≠ "")) = String.join l := by
  rw [String.join_eq, String.join_eq]
  congr 1
  induction l with
  | nil => rfl
  | cons a l ih =>
    rw [List.filter_cons]
    by_cases h : a = ""
    · subst h
      rw [if_neg (by simp), List.map_cons, List.flatten_cons,
        show ("" : String).data = [] from rfl, List.nil_append, ih]
    · rw [if_pos (by simp [h]), List.map_cons, List.map_cons,
        List.flatten_cons, List.flatten_cons, ih]

/-- One paragraph emits a record exactly when it has a non-empty word
text, and the content is the join of the non-empty word texts. -/
theorem paragraphRecord_eq (p : Paragraph) :
    paragraphRecord p
      = if (wordTexts p).filter (fun t => t ≠ "") = [] then none
        else some ⟨speakerNameOf p,
          String.join ((wordTexts p).filter (fun t => t ≠ "")),
          p.start_time.getD 0⟩ := by
  by_cases hc : (wordTexts p).filter (fun t => t ≠ "") = []
  · rw [if_pos hc]
    have hce : (contentParts p).isEmpty = true := by
      rw [contentParts_eq_filter, hc]
      rfl
    simp [paragraphRecord, hce]
  · rw [if_neg hc]
    cases hf : (wordTexts p).filter (fun t => t ≠ "") with
    | nil => exact absurd hf hc
    | cons a l =>
      unfold paragraphRecord
      simp only [contentParts_eq_filter, hf]
      simp

/-- Claim C3: on a document carrying a paragraph list, the Extractor
emits, per paragraph, exactly one record when at least one non-empty word
text fragment exists (its content being the separator-free join of the
non-empty fragments in source order) and no record otherwise; moreover
the empty fragments contribute nothing to the joined content. -/
theorem extractor_per_paragraph (ps : List Paragraph) :
    parse_transcript ⟨some ⟨some ps⟩⟩
      = ps.filterMap (fun p =>
          if (wordTexts p).filter (fun t => t ≠ "") = [] then none
          else some ⟨speakerNameOf p,
            String.join ((wordTexts p).filter (fun t => t ≠ "")),
            p.start_time.getD 0⟩)
    ∧ ∀ p : Paragraph,
        String.join ((wordTexts p).filter (fun t => t ≠ ""))
          = String.join (wordTexts p) := by
  constructor
  · show ps.filterMap paragraphRecord = _
    congr 1
    funext p
    exact paragraphRecord_eq p
  · intro p
    exact join_filter_nonempty _

/-! ### Merger: frame property over the heap model -/

theorem readCell_writeCell_eq (h : Heap) (a : Nat) (v : List Utterance) :
    readCell (writeCell h a v) a = v := by
  simp [readCell, writeCell]

theorem readCell_writeCell_ne (h : Heap) (a b : Nat) (v : List Utterance)
    (hne : b ≠ a) : readCell (writeCell h a v) b = readCell h b := by
  simp [readCell, writeCell, hne]

/-- The extend loop writes only to the accumulator cell. -/
theorem extendAll_read_ne (m b : Nat) (hne : b ≠ m) :
    ∀ (args : List Nat) (h : Heap),
      readCell (extendAll m h args) b = readCell h b := by
  intro args
  induction args with
  | nil => intro h; rfl
  | cons a args ih =>
    intro h
    show readCell
        (extendAll m (writeCell h m (readCell h m ++ readCell h a)) args) b = _
    rw [ih, readCell_writeCell_ne _ _ _ _ hne]

/-- After the extend loop, the accumulator cell holds its old value
followed by the concatenation of the argument cells. -/
theorem extendAll_read_eq (m : Nat) :
    ∀ (args : List Nat) (h : Heap), (∀ a ∈ args, a ≠ m) →
      readCell (extendAll m h args) m
        = readCell h m ++ (args.map (readCell h)).flatten := by
  intro args
  induction args with
  | nil => intro h _; simp [extendAll]
  | cons a args ih =>
    intro h hne
    show readCell
        (extendAll m (writeCell h m (readCell h m ++ readCell h a)) args) m = _
    rw [ih _ (fun x hx => hne x (List.mem_cons_of_mem a hx)), readCell_writeCell_eq]
    have hmap : args.map (readCell (writeCell h m (readCell h m ++ readCell h a)))
        = args.map (readCell h) :=
      List.map_congr_left fun x hx =>
        readCell_writeCell_ne _ _ _ _ (hne x (List.mem_cons_of_mem a hx))
    rw [hmap, List.map_cons, List.flatten_cons, List.append_assoc]

/-- Claim C8: run on the heap, the Merger leaves every previously
allocated cell (in particular every argument sequence) unchanged, places
its result in a fresh cell, and that result is exactly the functional
merge of the argument values: it only reorders records into a fresh
sequence, with no side effect on its inputs. -/
theorem merge_op_frame (h : Heap) (args : List Nat)
    (hargs : ∀ a ∈ args, a < h.next) :
    (∀ a, a < h.next → readCell (merge_transcripts_op h args).1 a = readCell h a)
    ∧ (merge_transcripts_op h args).2 = h.next
    ∧ readCell (merge_transcripts_op h args).1 (merge_transcripts_op h args).2
        = merge_transcripts (args.map (readCell h)) := by
  have hne_m : ∀ a ∈ args, a ≠ h.next := fun a ha => Nat.ne_of_lt (hargs a ha)
  refine ⟨?_, rfl, ?_⟩
  · intro a ha
    have hne : a ≠ h.next := Nat.ne_of_lt ha
    simp only [merge_transcripts_op, alloc]
    rw [readCell_writeCell_ne _ _ _ _ hne, extendAll_read_ne _ _ hne]
    simp [readCell, hne]
  · simp only [merge_transcripts_op, alloc]
    rw [readCell_writeCell_eq, extendAll_read_eq _ _ _ hne_m]
    have hzero :
        readCell ⟨h.next + 1, fun b => if b = h.next then [] else h.cells b⟩ h.next
          = [] := by
      simp [readCell]
    have hmap :
        args.map (readCell ⟨h.next + 1, fun b => if b = h.next then [] else h.cells b⟩)
          = args.map (readCell h) :=
      List.map_congr_left fun x hx => by
        simp [readCell, hne_m x hx]
    rw [hzero, hmap, List.nil_append, merge_eq_sort_flatten]

/-- Witness for claim C8 at a one-cell heap holding one record. -/
theorem merge_op_frame_witness :
    readCell (merge_transcripts_op ⟨1, fun _ => [⟨"A", "x", 0⟩]⟩ [0]).1 0
      = [⟨"A", "x", 0⟩] :=
  (merge_op_frame ⟨1, fun _ => [⟨"A", "x", 0⟩]⟩ [0] (by simp)).1 0 (by decide)

end Transcriber
